import Mathlib

/-!
Verification development for the `scrape` command-line tool
(`src/scrape_cli/scrape.py`).

The program is shallowly embedded: pure helpers (`clean_text`, `is_xpath`,
`detect_charset`) become Lean functions over `List Char` / `String`, and the
extraction loop of `main` becomes a pure function from an abstract document
(the lxml tree, an external collaborator, is modelled by its observable
interface: the list of nodes an XPath expression evaluates to) to the
program's observable outcome (exit code and stdout text).

Python regular-expression substitutions are embedded as recursive functions
whose semantics are derived from the concrete patterns used in the source;
each derivation is documented at the definition site.
-/

namespace Scrape

/-- The whitespace class used by Python's `\s` (in `re`) and by `str.strip()`.
Both use the same character class, which is what matters for the proofs:
the embedding uses one predicate for both, covering the ASCII whitespace
characters and the common Unicode ones. -/
def pyWs (c : Char) : Bool :=
  c = ' ' || c = '\t' || c = '\n' || c = '\r' || c.val = 11 || c.val = 12 ||
  c.val = 28 || c.val = 29 || c.val = 30 || c.val = 31 ||
  c.val = 0x85 || c.val = 0xa0 || c.val = 0x1680 ||
  (0x2000 ≤ c.val && c.val ≤ 0x200a) ||
  c.val = 0x2028 || c.val = 0x2029 || c.val = 0x202f || c.val = 0x205f ||
  c.val = 0x3000

/-- Step 1 of `clean_text`: `re.sub(r' +', ' ', text)`.
Every maximal run of space characters is replaced by a single space, which is
the same as deleting each space that immediately follows another space. -/
def squeezeSpaces : List Char → List Char
  | [] => []
  | [c] => [c]
  | a :: b :: rest =>
    if a = ' ' ∧ b = ' ' then squeezeSpaces (b :: rest)
    else a :: squeezeSpaces (b :: rest)

/-- Step 2 of `clean_text`: `re.sub(r'\n{3,}', '\n\n', text)`.
Every maximal run of three or more newlines is replaced by exactly two,
which is the same as deleting each newline that immediately follows two
newlines. -/
def squeezeNewlines : List Char → List Char
  | [] => []
  | [c] => [c]
  | [c, d] => [c, d]
  | a :: b :: c :: rest =>
    if a = '\n' ∧ b = '\n' ∧ c = '\n' then squeezeNewlines (b :: c :: rest)
    else a :: squeezeNewlines (b :: c :: rest)

/-- The maximal whitespace run at the head of the list. -/
def wsRun (l : List Char) : List Char := l.takeWhile pyWs

/-- Number of newline characters in a list. -/
def nlCount (l : List Char) : Nat := l.count '\n'

/-- The prefix of `l` extending up to and including the last newline of `l`
(empty if `l` has no newline). -/
def upToLastNl (l : List Char) : List Char :=
  (l.reverse.dropWhile (fun c => !(c = '\n'))).reverse

/-- The trigger condition of step 3's pattern `\n\s*\n\s*\n+` at the head of
the list: the head is a newline and the maximal whitespace run from it
contains at least 3 newlines.  (The pattern, consisting only of `\n` and
`\s`, matches at a position iff the position holds `\n` and two further
newlines occur inside the whitespace run that starts there.) -/
def badAt (l : List Char) : Bool :=
  (l.head? == some '\n') && decide (3 ≤ nlCount (wsRun l))

theorem dropWhile_ne_nil_of_mem {p : Char → Bool} :
    ∀ {l : List Char} {x : Char}, x ∈ l → p x = false → l.dropWhile p ≠ [] := by
  intro l
  induction l with
  | nil => intro x hx _; simp at hx
  | cons c rest ih =>
    intro x hx hpx
    by_cases hc : p c = true
    · rw [List.dropWhile_cons_of_pos hc]
      rcases List.mem_cons.mp hx with rfl | h
      · rw [hpx] at hc; cases hc
      · exact ih h hpx
    · rw [List.dropWhile_cons_of_neg (by simpa using hc)]
      simp

theorem upToLastNl_length_pos {l : List Char} (h : '\n' ∈ l) :
    0 < (upToLastNl l).length := by
  unfold upToLastNl
  rw [List.length_reverse]
  exact List.length_pos.mpr
    (dropWhile_ne_nil_of_mem (by simpa using h) (by simp))

theorem badAt_head {c : Char} {rest : List Char} (h : badAt (c :: rest) = true) :
    c = '\n' ∧ 3 ≤ nlCount (wsRun (c :: rest)) := by
  unfold badAt at h
  simp only [Bool.and_eq_true, beq_iff_eq, List.head?_cons, Option.some.injEq,
    decide_eq_true_eq] at h
  exact h

/-- Step 3 of `clean_text`: `re.sub(r'\n\s*\n\s*\n+', '\n\n', text)`.
Semantics of the Python substitution, derived from the pattern:
scanning left to right, the pattern matches at a position iff that position
holds `\n` and the maximal `\s`-run starting there contains at least three
newlines; the greedy match then extends exactly to the last newline of that
run (the leading `\s*` is maximal, placing the middle `\n` as late as
possible, and the trailing `\n+` then ends at the run's final newline).
The match is replaced by two newlines and scanning resumes after it. -/
def squeezeBlankLines : List Char → List Char
  | [] => []
  | c :: rest =>
    if h : badAt (c :: rest) = true then
      '\n' :: '\n' ::
        squeezeBlankLines ((c :: rest).drop (upToLastNl (wsRun (c :: rest))).length)
    else
      c :: squeezeBlankLines rest
termination_by l => l.length
decreasing_by
  · obtain ⟨hc, _⟩ := badAt_head h
    have hmem : '\n' ∈ wsRun (c :: rest) := by
      subst hc
      unfold wsRun
      rw [List.takeWhile_cons_of_pos (by simp [pyWs])]
      exact List.mem_cons_self _ _
    have hpos := upToLastNl_length_pos hmem
    rw [List.length_drop]
    have : 0 < (c :: rest).length := by simp
    omega
  · simp

/-- `text.split('\n')` from Python: split a character list on newlines.
Always returns at least one (possibly empty) line; lines contain no newline. -/
def splitNl : List Char → List (List Char)
  | [] => [[]]
  | c :: rest =>
    if c = '\n' then [] :: splitNl rest
    else (c :: (splitNl rest).headD []) :: (splitNl rest).tail

/-- `'\n'.join(...)` from Python. -/
def joinNl : List (List Char) → List Char
  | [] => []
  | [l] => l
  | l :: ls => l ++ '\n' :: joinNl ls

/-- Remove trailing characters satisfying `p` (used for the right half of
Python's `str.strip()`). -/
def dropTrail (p : Char → Bool) (l : List Char) : List Char :=
  (l.reverse.dropWhile p).reverse

/-- Python's `str.strip()`: remove leading and trailing whitespace. -/
def pyStrip (l : List Char) : List Char :=
  dropTrail pyWs (l.dropWhile pyWs)

/-- Step 4 of `clean_text`:
`'\n'.join(line.strip() for line in text.split('\n'))`. -/
def stripLines (l : List Char) : List Char :=
  joinNl ((splitNl l).map pyStrip)

/-- `clean_text` from `scrape.py`, on character lists: the five text-cleaning
steps applied in source order. -/
def cleanList (l : List Char) : List Char :=
  pyStrip (stripLines (squeezeBlankLines (squeezeNewlines (squeezeSpaces l))))

/-- `clean_text` from `scrape.py` (lines 29–46). -/
def clean_text (s : String) : String :=
  ⟨cleanList s.data⟩

/-! ### Invariants characterising `clean_text`'s output

`clean_text` is idempotent because its output always satisfies a fixed
collection of syntactic invariants, and a string satisfying them is a fixed
point of every one of the five steps. -/

/-- No two consecutive space characters. -/
def noDbl : List Char → Bool
  | [] => true
  | [_] => true
  | a :: b :: rest => !(a = ' ' && b = ' ') && noDbl (b :: rest)

/-- No position at which step 3's pattern `\n\s*\n\s*\n+` matches. -/
def hasBad : List Char → Bool
  | [] => false
  | c :: rest => badAt (c :: rest) || hasBad rest

/-- Adjacent-pair condition of a text whose lines are all stripped: a
whitespace character next to a newline must itself be a newline. -/
def pairOk (a b : Char) : Bool :=
  (!(a = '\n') || !(pyWs b) || b = '\n') && (!(pyWs a) || !(b = '\n') || a = '\n')

/-- All adjacent pairs satisfy `pairOk`. -/
def isolated : List Char → Bool
  | [] => true
  | [_] => true
  | a :: b :: rest => pairOk a b && isolated (b :: rest)

/-- The head, if whitespace, is a newline (first line carries no leading
whitespace). -/
def headOkB (l : List Char) : Bool :=
  match l.head? with
  | none => true
  | some c => !(pyWs c) || c = '\n'

/-- The last character, if whitespace, is a newline. -/
def lastOkB (l : List Char) : Bool :=
  match l.getLast? with
  | none => true
  | some c => !(pyWs c) || c = '\n'

/-- Character-level statement that every line of the text is stripped. -/
def linesOk (l : List Char) : Bool := isolated l && headOkB l && lastOkB l

/-- Invariant satisfied by every output of `cleanList`. -/
def goodText (l : List Char) : Bool :=
  noDbl l && !(hasBad l) && linesOk l && decide (pyStrip l = l)

@[simp] theorem pyWs_nl : pyWs '\n' = true := by decide

@[simp] theorem pyWs_space : pyWs ' ' = true := by decide

theorem wsRun_nil : wsRun [] = [] := rfl

theorem wsRun_cons (c : Char) (l : List Char) :
    wsRun (c :: l) = if pyWs c then c :: wsRun l else [] := by
  unfold wsRun
  rw [List.takeWhile_cons]

@[simp] theorem wsRun_cons_pos {c : Char} {l : List Char} (h : pyWs c = true) :
    wsRun (c :: l) = c :: wsRun l := by
  rw [wsRun_cons, if_pos h]

@[simp] theorem wsRun_cons_neg {c : Char} {l : List Char} (h : pyWs c = false) :
    wsRun (c :: l) = [] := by
  rw [wsRun_cons, if_neg (by simp [h])]

@[simp] theorem nlCount_nil : nlCount [] = 0 := rfl

theorem nlCount_cons (c : Char) (l : List Char) :
    nlCount (c :: l) = (if c = '\n' then 1 else 0) + nlCount l := by
  unfold nlCount
  rw [List.count_cons]
  by_cases h : c = '\n' <;> simp [h] <;> omega

@[simp] theorem nlCount_cons_nl (l : List Char) :
    nlCount ('\n' :: l) = 1 + nlCount l := by
  rw [nlCount_cons, if_pos rfl]

theorem nlCount_cons_of_ne {c : Char} (l : List Char) (h : ¬ c = '\n') :
    nlCount (c :: l) = nlCount l := by
  rw [nlCount_cons, if_neg h]
  omega

theorem badAt_cons (c : Char) (l : List Char) :
    badAt (c :: l) = (decide (c = '\n') && decide (3 ≤ nlCount (wsRun (c :: l)))) := by
  unfold badAt
  by_cases hc : c = '\n' <;> simp [hc]

theorem badAt_false_of_count {c : Char} {l : List Char}
    (h : nlCount (wsRun (c :: l)) < 3) : badAt (c :: l) = false := by
  rw [badAt_cons]
  simp only [Bool.and_eq_false_iff, decide_eq_false_iff_not]
  right
  omega

theorem hasBad_cons (c : Char) (l : List Char) :
    hasBad (c :: l) = (badAt (c :: l) || hasBad l) := rfl

theorem hasBad_tail {c : Char} {l : List Char} (h : hasBad (c :: l) = false) :
    hasBad l = false := by
  rw [hasBad_cons] at h
  exact (Bool.or_eq_false_iff.mp h).2

theorem badAt_head_false {c : Char} {l : List Char} (h : hasBad (c :: l) = false) :
    badAt (c :: l) = false := by
  rw [hasBad_cons] at h
  exact (Bool.or_eq_false_iff.mp h).1

/-- Fixed point: a string without consecutive spaces is unchanged by step 1. -/
theorem squeezeSpaces_of_noDbl : ∀ {l : List Char}, noDbl l = true → squeezeSpaces l = l
  | [], _ => rfl
  | [_], _ => rfl
  | a :: b :: rest, h => by
    unfold noDbl at h
    simp only [Bool.and_eq_true, Bool.not_eq_true'] at h
    unfold squeezeSpaces
    rw [if_neg (by simpa using h.1)]
    rw [squeezeSpaces_of_noDbl h.2]

/-- Fixed point: a string without a step-3 match has no three consecutive
newlines and is unchanged by step 2. -/
theorem squeezeNewlines_of_noBad : ∀ {l : List Char}, hasBad l = false → squeezeNewlines l = l
  | [], _ => rfl
  | [_], _ => rfl
  | [_, _], _ => rfl
  | a :: b :: c :: rest, h => by
    unfold squeezeNewlines
    have hne : ¬(a = '\n' ∧ b = '\n' ∧ c = '\n') := by
      rintro ⟨rfl, rfl, rfl⟩
      have hb := badAt_head_false h
      rw [badAt_cons] at hb
      simp at hb
      omega
    rw [if_neg hne]
    rw [squeezeNewlines_of_noBad (hasBad_tail h)]

/-- Fixed point: a string without a step-3 match is unchanged by step 3. -/
theorem squeezeBlankLines_of_noBad : ∀ {l : List Char}, hasBad l = false → squeezeBlankLines l = l
  | [], _ => by simp [squeezeBlankLines]
  | c :: rest, h => by
    unfold squeezeBlankLines
    rw [dif_neg (by simp [badAt_head_false h])]
    rw [squeezeBlankLines_of_noBad (hasBad_tail h)]
termination_by l => l.length
decreasing_by
  simp

/-! ### Heads, last elements, `pyStrip` -/

theorem mem_of_head?_eq {l : List Char} {c : Char} (h : l.head? = some c) : c ∈ l := by
  cases l with
  | nil => cases h
  | cons a t =>
    simp only [List.head?_cons, Option.some.injEq] at h
    subst h
    exact List.mem_cons_self _ _

theorem mem_of_getLast?_eq {l : List Char} {c : Char} (h : l.getLast? = some c) : c ∈ l := by
  have h' : l.reverse.head? = some c := by rw [List.head?_reverse]; exact h
  simpa using mem_of_head?_eq h'

theorem head?_dropWhile_false {p : Char → Bool} {l : List Char} {c : Char}
    (h : (l.dropWhile p).head? = some c) : p c = false := by
  have := List.head?_dropWhile_not p l
  rw [h] at this
  exact this

theorem dropWhile_eq_self_of_head {p : Char → Bool} {l : List Char}
    (h : ∀ c, l.head? = some c → p c = false) : l.dropWhile p = l := by
  cases l with
  | nil => rfl
  | cons a t => exact List.dropWhile_cons_of_neg (by simp [h a rfl])

theorem dropTrail_decomp (p : Char → Bool) (l : List Char) :
    ∃ t, (∀ x ∈ t, p x = true) ∧ l = dropTrail p l ++ t := by
  refine ⟨(l.reverse.takeWhile p).reverse, ?_, ?_⟩
  · intro x hx
    exact List.mem_takeWhile_imp (by simpa using hx)
  · unfold dropTrail
    rw [← List.reverse_append, List.takeWhile_append_dropWhile p l.reverse,
      List.reverse_reverse]

theorem getLast?_dropTrail_false {p : Char → Bool} {l : List Char} {c : Char}
    (h : (dropTrail p l).getLast? = some c) : p c = false := by
  unfold dropTrail at h
  rw [List.getLast?_reverse] at h
  exact head?_dropWhile_false h

theorem dropTrail_eq_self_of_getLast {p : Char → Bool} {l : List Char}
    (h : ∀ c, l.getLast? = some c → p c = false) : dropTrail p l = l := by
  unfold dropTrail
  rw [dropWhile_eq_self_of_head, List.reverse_reverse]
  intro c hc
  exact h c (by rwa [List.head?_reverse] at hc)

theorem pyStrip_nil : pyStrip [] = [] := rfl

theorem pyStrip_head_false {l : List Char} {c : Char}
    (h : (pyStrip l).head? = some c) : pyWs c = false := by
  unfold pyStrip at h
  obtain ⟨t, _, hdec⟩ := dropTrail_decomp pyWs (l.dropWhile pyWs)
  have hh : (l.dropWhile pyWs).head? = some c := by
    rw [hdec, List.head?_append, h]
    rfl
  exact head?_dropWhile_false hh

theorem pyStrip_last_false {l : List Char} {c : Char}
    (h : (pyStrip l).getLast? = some c) : pyWs c = false :=
  getLast?_dropTrail_false h

theorem pyStrip_eq_self {l : List Char}
    (hh : ∀ c, l.head? = some c → pyWs c = false)
    (hl : ∀ c, l.getLast? = some c → pyWs c = false) : pyStrip l = l := by
  unfold pyStrip
  rw [dropWhile_eq_self_of_head hh, dropTrail_eq_self_of_getLast hl]

theorem pyStrip_idem (l : List Char) : pyStrip (pyStrip l) = pyStrip l :=
  pyStrip_eq_self (fun _ h => pyStrip_head_false h) (fun _ h => pyStrip_last_false h)

theorem pyStrip_decomp (l : List Char) :
    ∃ a b, (∀ x ∈ a, pyWs x = true) ∧ (∀ x ∈ b, pyWs x = true) ∧
      l = a ++ pyStrip l ++ b := by
  obtain ⟨t, ht, hdec⟩ := dropTrail_decomp pyWs (l.dropWhile pyWs)
  refine ⟨l.takeWhile pyWs, t, ?_, ht, ?_⟩
  · intro x hx
    exact List.mem_takeWhile_imp hx
  · have hps : pyStrip l = dropTrail pyWs (l.dropWhile pyWs) := rfl
    rw [List.append_assoc, hps, ← hdec, List.takeWhile_append_dropWhile]

theorem mem_of_mem_pyStrip {l : List Char} {x : Char} (h : x ∈ pyStrip l) : x ∈ l := by
  obtain ⟨a, b, _, _, hdec⟩ := pyStrip_decomp l
  rw [hdec]
  simp only [List.mem_append]
  exact Or.inl (Or.inr h)

/-! ### `splitNl`, `joinNl`, `stripLines` structure -/

theorem splitNl_cons_nl (rest : List Char) :
    splitNl ('\n' :: rest) = [] :: splitNl rest := by
  show (if ('\n' : Char) = '\n' then [] :: splitNl rest else _) = _
  rw [if_pos rfl]

theorem splitNl_cons_ne {c : Char} (rest : List Char) (hc : ¬ c = '\n') :
    splitNl (c :: rest) = (c :: (splitNl rest).headD []) :: (splitNl rest).tail := by
  show (if c = '\n' then [] :: splitNl rest else
    (c :: (splitNl rest).headD []) :: (splitNl rest).tail) = _
  rw [if_neg hc]

theorem splitNl_ne_nil (l : List Char) : splitNl l ≠ [] := by
  cases l with
  | nil => simp [splitNl]
  | cons c rest =>
    by_cases hc : c = '\n'
    · subst hc
      rw [splitNl_cons_nl]
      simp
    · rw [splitNl_cons_ne rest hc]
      simp

theorem splitNl_no_nl : ∀ {l : List Char}, '\n' ∉ l → splitNl l = [l]
  | [], _ => rfl
  | c :: rest, h => by
    have hc : ¬ c = '\n' := by
      intro e
      exact h (by rw [← e]; exact List.mem_cons_self c rest)
    rw [splitNl_cons_ne rest hc,
      splitNl_no_nl (fun m => h (List.mem_cons_of_mem c m))]
    rfl

theorem splitNl_break : ∀ {l₁ : List Char} (l₂ : List Char), '\n' ∉ l₁ →
    splitNl (l₁ ++ '\n' :: l₂) = l₁ :: splitNl l₂
  | [], l₂, _ => by
    show splitNl ('\n' :: l₂) = [] :: splitNl l₂
    exact splitNl_cons_nl l₂
  | c :: t, l₂, h => by
    have hc : ¬ c = '\n' := by
      intro e
      exact h (by rw [← e]; exact List.mem_cons_self c _)
    show splitNl (c :: (t ++ '\n' :: l₂)) = (c :: t) :: splitNl l₂
    rw [splitNl_cons_ne _ hc, splitNl_break l₂ (fun m => h (List.mem_cons_of_mem c m))]
    rfl

theorem break_of_mem : ∀ {l : List Char}, '\n' ∈ l →
    ∃ l₁ l₂, '\n' ∉ l₁ ∧ l = l₁ ++ '\n' :: l₂
  | [], h => absurd h (by simp)
  | c :: rest, h => by
    by_cases hc : c = '\n'
    · exact ⟨[], rest, by simp, by simp [hc]⟩
    · have hr : '\n' ∈ rest := by
        rcases List.mem_cons.mp h with e | hr
        · exact absurd e.symm hc
        · exact hr
      obtain ⟨l₁, l₂, hn, hdec⟩ := break_of_mem hr
      refine ⟨c :: l₁, l₂, ?_, by simp [hdec]⟩
      intro m
      rcases List.mem_cons.mp m with e | m'
      · exact hc e.symm
      · exact hn m'

theorem joinNl_cons (l : List Char) (L : List (List Char)) (h : L ≠ []) :
    joinNl (l :: L) = l ++ '\n' :: joinNl L := by
  cases L with
  | nil => exact absurd rfl h
  | cons m M => rfl

theorem stripLines_no_nl {l : List Char} (h : '\n' ∉ l) : stripLines l = pyStrip l := by
  unfold stripLines
  rw [splitNl_no_nl h]
  rfl

theorem stripLines_break {l₁ : List Char} (l₂ : List Char) (h : '\n' ∉ l₁) :
    stripLines (l₁ ++ '\n' :: l₂) = pyStrip l₁ ++ '\n' :: stripLines l₂ := by
  unfold stripLines
  rw [splitNl_break l₂ h, List.map_cons]
  rw [joinNl_cons _ _ ?hne]
  case hne =>
    intro he
    exact splitNl_ne_nil l₂ (List.map_eq_nil.mp he)

/-! ### `pairOk` / `isolated` toolkit -/

theorem pairOk_of_not_nl {x y : Char} (hx : ¬ x = '\n') (hy : ¬ y = '\n') :
    pairOk x y = true := by
  simp [pairOk, hx, hy]

theorem pairOk_of_left_not_ws {x y : Char} (hx : pyWs x = false) : pairOk x y = true := by
  have hnx : ¬ x = '\n' := by
    intro e
    rw [e, pyWs_nl] at hx
    cases hx
  simp [pairOk, hx, hnx]

theorem pairOk_of_right_not_ws {x y : Char} (hy : pyWs y = false) : pairOk x y = true := by
  have hny : ¬ y = '\n' := by
    intro e
    rw [e, pyWs_nl] at hy
    cases hy
  simp [pairOk, hy, hny]

theorem pairOk_left_ws {x y : Char} (h : pairOk x y = true) (hx : pyWs x = true)
    (hy : y = '\n') : x = '\n' := by
  simp [pairOk, hx, hy] at h
  exact h

theorem pairOk_right_ws {x y : Char} (h : pairOk x y = true) (hx : x = '\n')
    (hy : pyWs y = true) : y = '\n' := by
  simp [pairOk, hx, hy] at h
  exact h

theorem isolated_tail {a : Char} {l : List Char} (h : isolated (a :: l) = true) :
    isolated l = true := by
  cases l with
  | nil => rfl
  | cons b m =>
    unfold isolated at h
    simp only [Bool.and_eq_true] at h
    exact h.2

theorem isolated_pair {a b : Char} {l : List Char} (h : isolated (a :: b :: l) = true) :
    pairOk a b = true := by
  unfold isolated at h
  simp only [Bool.and_eq_true] at h
  exact h.1

theorem isolated_cons_intro {y : Char} {m : List Char} (hm : isolated m = true)
    (hp : ∀ c, m.head? = some c → pairOk y c = true) : isolated (y :: m) = true := by
  cases m with
  | nil => rfl
  | cons b m' =>
    unfold isolated
    rw [Bool.and_eq_true]
    exact ⟨hp b rfl, hm⟩

theorem isolated_append_right : ∀ {a b : List Char}, isolated (a ++ b) = true →
    isolated b = true
  | [], _, h => h
  | _ :: a', b, h => isolated_append_right (a := a') (isolated_tail h)

theorem isolated_append_left : ∀ {a : List Char} (b : List Char), isolated (a ++ b) = true →
    isolated a = true
  | [], _, _ => rfl
  | [_], _, _ => rfl
  | x :: y :: a', b, h => by
    have hp : pairOk x y = true := isolated_pair (l := a' ++ b) h
    have hr := isolated_append_left (a := y :: a') b (isolated_tail h)
    unfold isolated
    rw [Bool.and_eq_true]
    exact ⟨hp, hr⟩

theorem isolated_junction : ∀ {l₁ : List Char} {x y : Char} {l₂ : List Char},
    isolated (l₁ ++ y :: l₂) = true → l₁.getLast? = some x → pairOk x y = true
  | [], _, _, _, _, hx => by cases hx
  | [a], x, y, l₂, h, hx => by
    have : a = x := by simpa using hx
    subst this
    exact isolated_pair h
  | a :: b :: l₁', x, y, l₂, h, hx => by
    have hx' : (b :: l₁').getLast? = some x := by
      rw [← List.getLast?_cons_cons]
      exact hx
    exact isolated_junction
      (show isolated ((b :: l₁') ++ y :: l₂) = true from isolated_tail h) hx'

theorem isolated_after : ∀ {l₁ : List Char} {y : Char} {l₂ : List Char} {c : Char},
    isolated (l₁ ++ y :: l₂) = true → l₂.head? = some c → pairOk y c = true
  | [], y, l₂, c, h, hc => by
    cases l₂ with
    | nil => cases hc
    | cons d l₂' =>
      have : d = c := by simpa using hc
      subst this
      exact isolated_pair h
  | _ :: l₁', y, l₂, c, h, hc =>
    isolated_after (show isolated (l₁' ++ y :: l₂) = true from isolated_tail h) hc

theorem isolated_append_intro : ∀ {a b : List Char}, isolated a = true →
    isolated b = true →
    (∀ x y, a.getLast? = some x → b.head? = some y → pairOk x y = true) →
    isolated (a ++ b) = true
  | [], _, _, hb, _ => hb
  | [x], b, _, hb, hj => by
    apply isolated_cons_intro hb
    intro c hc
    exact hj x c rfl hc
  | x :: y :: a', b, ha, hb, hj => by
    show isolated (x :: y :: (a' ++ b)) = true
    unfold isolated
    rw [Bool.and_eq_true]
    refine ⟨isolated_pair ha, ?_⟩
    apply isolated_append_intro (a := y :: a') (isolated_tail ha) hb
    intro u v hu hv
    apply hj u v _ hv
    rw [List.getLast?_cons_cons]
    exact hu

theorem isolated_no_nl : ∀ {m : List Char}, '\n' ∉ m → isolated m = true
  | [], _ => rfl
  | [_], _ => rfl
  | x :: y :: m', h => by
    unfold isolated
    rw [Bool.and_eq_true]
    constructor
    · apply pairOk_of_not_nl
      · intro e
        exact h (by rw [← e]; exact List.mem_cons_self _ _)
      · intro e
        exact h (by rw [← e]; exact List.mem_cons_of_mem _ (List.mem_cons_self _ _))
    · exact isolated_no_nl (fun m => h (List.mem_cons_of_mem _ m))

/-! ### `headOkB` / `lastOkB` / `linesOk` toolkit -/

theorem linesOk_split {l : List Char} (h : linesOk l = true) :
    isolated l = true ∧ headOkB l = true ∧ lastOkB l = true := by
  unfold linesOk at h
  simp only [Bool.and_eq_true] at h
  exact ⟨h.1.1, h.1.2, h.2⟩

theorem linesOk_intro {l : List Char} (h1 : isolated l = true) (h2 : headOkB l = true)
    (h3 : lastOkB l = true) : linesOk l = true := by
  unfold linesOk
  simp [h1, h2, h3]

theorem headOkB_of_head {l : List Char}
    (h : ∀ c, l.head? = some c → pyWs c = false ∨ c = '\n') : headOkB l = true := by
  unfold headOkB
  cases hc : l.head? with
  | none => rfl
  | some c =>
    rcases h c hc with hw | he
    · simp [hw]
    · simp [he]

theorem headOkB_elim {l : List Char} {c : Char} (h : headOkB l = true)
    (hc : l.head? = some c) (hws : pyWs c = true) : c = '\n' := by
  unfold headOkB at h
  rw [hc] at h
  simp [hws] at h
  exact h

theorem lastOkB_of_getLast {l : List Char}
    (h : ∀ c, l.getLast? = some c → pyWs c = false ∨ c = '\n') : lastOkB l = true := by
  unfold lastOkB
  cases hc : l.getLast? with
  | none => rfl
  | some c =>
    rcases h c hc with hw | he
    · simp [hw]
    · simp [he]

theorem lastOkB_elim {l : List Char} {c : Char} (h : lastOkB l = true)
    (hc : l.getLast? = some c) (hws : pyWs c = true) : c = '\n' := by
  unfold lastOkB at h
  rw [hc] at h
  simp [hws] at h
  exact h

/-- Fixed point: a text whose lines are all stripped is unchanged by step 4. -/
theorem stripLines_of_linesOk : ∀ {l : List Char}, linesOk l = true → stripLines l = l
  | l, h => by
    obtain ⟨hiso, hhead, hlast⟩ := linesOk_split h
    by_cases hm : '\n' ∈ l
    · obtain ⟨l₁, l₂, hn, hdec⟩ := break_of_mem hm
      rw [hdec] at hiso hhead hlast
      rw [hdec, stripLines_break l₂ hn]
      have hps : pyStrip l₁ = l₁ := by
        apply pyStrip_eq_self
        · intro c hc
          have hcl : (l₁ ++ '\n' :: l₂).head? = some c := by
            rw [List.head?_append, hc]
            rfl
          have hcne : ¬ c = '\n' := fun e => hn (by rw [← e]; exact mem_of_head?_eq hc)
          by_cases hws : pyWs c = true
          · exact absurd (headOkB_elim hhead hcl hws) hcne
          · simpa using hws
        · intro c hc
          have hp := isolated_junction hiso hc
          have hcne : ¬ c = '\n' := fun e => hn (by rw [← e]; exact mem_of_getLast?_eq hc)
          by_cases hws : pyWs c = true
          · exact absurd (pairOk_left_ws hp hws rfl) hcne
          · simpa using hws
      rw [hps]
      have hl₂ : linesOk l₂ = true := by
        apply linesOk_intro
        · exact isolated_tail (isolated_append_right (a := l₁) hiso)
        · apply headOkB_of_head
          intro c hc
          by_cases hws : pyWs c = true
          · exact Or.inr (pairOk_right_ws (isolated_after hiso hc) rfl hws)
          · exact Or.inl (by simpa using hws)
        · apply lastOkB_of_getLast
          intro c hc
          cases l₂ with
          | nil => cases hc
          | cons d l₂' =>
            have hgl : (l₁ ++ '\n' :: d :: l₂').getLast? = some c := by
              rw [List.getLast?_append_of_ne_nil l₁ (by simp), List.getLast?_cons_cons]
              exact hc
            by_cases hws : pyWs c = true
            · exact Or.inr (lastOkB_elim hlast hgl hws)
            · exact Or.inl (by simpa using hws)
      rw [stripLines_of_linesOk hl₂]
    · rw [stripLines_no_nl hm]
      apply pyStrip_eq_self
      · intro c hc
        have hcne : ¬ c = '\n' := fun e => hm (by rw [← e]; exact mem_of_head?_eq hc)
        by_cases hws : pyWs c = true
        · exact absurd (headOkB_elim hhead hc hws) hcne
        · simpa using hws
      · intro c hc
        have hcne : ¬ c = '\n' := fun e => hm (by rw [← e]; exact mem_of_getLast?_eq hc)
        by_cases hws : pyWs c = true
        · exact absurd (lastOkB_elim hlast hc hws) hcne
        · simpa using hws
termination_by l => l.length
decreasing_by
  rw [hdec]
  simp
  omega

/-! ### Heads are preserved by the squeezing steps -/

theorem head?_squeezeSpaces : ∀ (l : List Char), (squeezeSpaces l).head? = l.head?
  | [] => rfl
  | [_] => rfl
  | a :: b :: rest => by
    unfold squeezeSpaces
    by_cases h : a = ' ' ∧ b = ' '
    · rw [if_pos h, head?_squeezeSpaces (b :: rest)]
      simp [h.1, h.2]
    · rw [if_neg h]
      rfl

theorem head?_squeezeNewlines : ∀ (l : List Char), (squeezeNewlines l).head? = l.head?
  | [] => rfl
  | [_] => rfl
  | [_, _] => rfl
  | a :: b :: c :: rest => by
    unfold squeezeNewlines
    by_cases h : a = '\n' ∧ b = '\n' ∧ c = '\n'
    · rw [if_pos h, head?_squeezeNewlines (b :: c :: rest)]
      simp [h.1, h.2.1]
    · rw [if_neg h]
      rfl

theorem head?_squeezeBlankLines : ∀ (l : List Char), (squeezeBlankLines l).head? = l.head?
  | [] => by simp [squeezeBlankLines]
  | c :: rest => by
    unfold squeezeBlankLines
    by_cases h : badAt (c :: rest) = true
    · rw [dif_pos h]
      obtain ⟨hc, _⟩ := badAt_head h
      rw [hc]
      rfl
    · rw [dif_neg h]
      rfl

/-! ### `noDbl` toolkit -/

theorem noDbl_tail {a : Char} {l : List Char} (h : noDbl (a :: l) = true) :
    noDbl l = true := by
  cases l with
  | nil => rfl
  | cons b m =>
    unfold noDbl at h
    simp only [Bool.and_eq_true] at h
    exact h.2

theorem noDbl_pair {a b : Char} {l : List Char} (h : noDbl (a :: b :: l) = true) :
    ¬(a = ' ' ∧ b = ' ') := by
  unfold noDbl at h
  simp only [Bool.and_eq_true, Bool.not_eq_true'] at h
  intro e
  rw [e.1, e.2] at h
  simp at h

theorem noDbl_cons_intro {a : Char} {m : List Char} (hm : noDbl m = true)
    (hp : ∀ c, m.head? = some c → ¬(a = ' ' ∧ c = ' ')) : noDbl (a :: m) = true := by
  cases m with
  | nil => rfl
  | cons b m' =>
    unfold noDbl
    simp only [Bool.and_eq_true]
    constructor
    · have := hp b rfl
      simp only [Bool.not_eq_true']
      by_cases ha : a = ' '
      · by_cases hb : b = ' '
        · exact absurd ⟨ha, hb⟩ this
        · simp [ha, hb]
      · simp [ha]
    · exact hm

theorem noDbl_cons_of_ne_space {a : Char} {m : List Char} (ha : ¬ a = ' ')
    (hm : noDbl m = true) : noDbl (a :: m) = true :=
  noDbl_cons_intro hm (fun _ _ e => ha e.1)

theorem noDbl_append_right : ∀ {a b : List Char}, noDbl (a ++ b) = true → noDbl b = true
  | [], _, h => h
  | _ :: a', b, h => noDbl_append_right (a := a') (noDbl_tail h)

theorem noDbl_append_left : ∀ {a : List Char} (b : List Char), noDbl (a ++ b) = true →
    noDbl a = true
  | [], _, _ => rfl
  | [_], _, _ => rfl
  | x :: y :: a', b, h => by
    have hp := noDbl_pair (l := a' ++ b) h
    have hr := noDbl_append_left (a := y :: a') b (noDbl_tail h)
    exact noDbl_cons_intro hr (fun c hc => by
      have : c = y := by simpa using hc.symm
      rw [this]
      exact hp)

theorem noDbl_drop {l : List Char} (h : noDbl l = true) :
    ∀ (n : Nat), noDbl (l.drop n) = true := by
  induction l with
  | nil => intro n; simp [h]
  | cons c rest ih =>
    intro n
    cases n with
    | zero => exact h
    | succ m => exact ih (noDbl_tail h) m

theorem noDbl_append_intro : ∀ {a b : List Char}, noDbl a = true → noDbl b = true →
    (∀ x y, a.getLast? = some x → b.head? = some y → ¬(x = ' ' ∧ y = ' ')) →
    noDbl (a ++ b) = true
  | [], _, _, hb, _ => hb
  | [x], b, _, hb, hj => noDbl_cons_intro hb (fun c hc => hj x c rfl hc)
  | x :: y :: a', b, ha, hb, hj => by
    show noDbl (x :: y :: (a' ++ b)) = true
    apply noDbl_cons_intro
    · apply noDbl_append_intro (a := y :: a') (noDbl_tail ha) hb
      intro u v hu hv
      apply hj u v _ hv
      rw [List.getLast?_cons_cons]
      exact hu
    · intro c hc
      have : c = y := by simpa using hc.symm
      rw [this]
      exact noDbl_pair ha

theorem noDbl_pyStrip {l : List Char} (h : noDbl l = true) : noDbl (pyStrip l) = true := by
  obtain ⟨a, b, _, _, hdec⟩ := pyStrip_decomp l
  rw [hdec] at h
  exact noDbl_append_right (a := a) (noDbl_append_left b h)

/-! ### `noDbl` is established by step 1 and preserved by the later steps -/

theorem noDbl_squeezeSpaces : ∀ (l : List Char), noDbl (squeezeSpaces l) = true
  | [] => rfl
  | [_] => rfl
  | a :: b :: rest => by
    unfold squeezeSpaces
    by_cases h : a = ' ' ∧ b = ' '
    · rw [if_pos h]
      exact noDbl_squeezeSpaces (b :: rest)
    · rw [if_neg h]
      apply noDbl_cons_intro (noDbl_squeezeSpaces (b :: rest))
      intro c hc
      rw [head?_squeezeSpaces (b :: rest)] at hc
      have : c = b := by simpa using hc.symm
      rw [this]
      exact h

theorem noDbl_squeezeNewlines : ∀ {l : List Char}, noDbl l = true →
    noDbl (squeezeNewlines l) = true
  | [], h => h
  | [_], h => h
  | [_, _], h => h
  | a :: b :: c :: rest, h => by
    unfold squeezeNewlines
    by_cases hc : a = '\n' ∧ b = '\n' ∧ c = '\n'
    · rw [if_pos hc]
      exact noDbl_squeezeNewlines (noDbl_tail h)
    · rw [if_neg hc]
      apply noDbl_cons_intro (noDbl_squeezeNewlines (noDbl_tail h))
      intro d hd
      rw [head?_squeezeNewlines (b :: c :: rest)] at hd
      have : d = b := by simpa using hd.symm
      rw [this]
      exact noDbl_pair h

theorem noDbl_squeezeBlankLines : ∀ {l : List Char}, noDbl l = true →
    noDbl (squeezeBlankLines l) = true
  | [], _ => by simp [squeezeBlankLines, noDbl]
  | c :: rest, h => by
    unfold squeezeBlankLines
    by_cases hb : badAt (c :: rest) = true
    · rw [dif_pos hb]
      have hrec := noDbl_squeezeBlankLines
        (l := (c :: rest).drop (upToLastNl (wsRun (c :: rest))).length)
        (noDbl_drop h _)
      apply noDbl_cons_of_ne_space (by decide)
      apply noDbl_cons_of_ne_space (by decide)
      exact hrec
    · rw [dif_neg hb]
      apply noDbl_cons_intro (noDbl_squeezeBlankLines (noDbl_tail h))
      intro d hd
      rw [head?_squeezeBlankLines rest] at hd
      intro e
      cases rest with
      | nil => cases hd
      | cons b m =>
        have : d = b := by simpa using hd.symm
        rw [this] at e
        exact noDbl_pair h e
termination_by l => l.length
decreasing_by
  · obtain ⟨hc, _⟩ := badAt_head hb
    have hmem : '\n' ∈ wsRun (c :: rest) := by
      subst hc
      rw [wsRun_cons_pos pyWs_nl]
      exact List.mem_cons_self _ _
    have hpos := upToLastNl_length_pos hmem
    rw [List.length_drop]
    have : 0 < (c :: rest).length := by simp
    omega
  · simp

theorem noDbl_stripLines : ∀ {l : List Char}, noDbl l = true → noDbl (stripLines l) = true
  | l, h => by
    by_cases hm : '\n' ∈ l
    · obtain ⟨l₁, l₂, hn, hdec⟩ := break_of_mem hm
      rw [hdec] at h
      rw [hdec, stripLines_break l₂ hn]
      have h₁ : noDbl l₁ = true := noDbl_append_left _ h
      have h₂ : noDbl l₂ = true := noDbl_tail (noDbl_append_right (a := l₁) h)
      apply noDbl_append_intro (noDbl_pyStrip h₁)
      · apply noDbl_cons_of_ne_space (by decide)
        exact noDbl_stripLines h₂
      · intro x y _ hy e
        have : y = '\n' := by simpa using hy.symm
        rw [this] at e
        exact absurd e.2 (by decide)
    · rw [stripLines_no_nl hm]
      exact noDbl_pyStrip h
termination_by l => l.length
decreasing_by
  rw [hdec]
  simp
  omega

/-! ### `hasBad` toolkit -/

theorem mem_of_mem_wsRun {l : List Char} {x : Char} (h : x ∈ wsRun l) : x ∈ l := by
  have hdec : l = wsRun l ++ l.dropWhile pyWs :=
    (List.takeWhile_append_dropWhile pyWs l).symm
  rw [hdec]
  exact List.mem_append_left _ h

theorem pyWs_of_mem_wsRun {l : List Char} {x : Char} (h : x ∈ wsRun l) :
    pyWs x = true :=
  List.mem_takeWhile_imp h

theorem nlCount_eq_zero {l : List Char} (h : '\n' ∉ l) : nlCount l = 0 :=
  List.count_eq_zero.mpr h

theorem nlCount_append (a b : List Char) : nlCount (a ++ b) = nlCount a + nlCount b :=
  List.count_append _ _ _

theorem wsRun_append_all {a : List Char} (b : List Char) (ha : ∀ x ∈ a, pyWs x = true) :
    wsRun (a ++ b) = a ++ wsRun b := by
  induction a with
  | nil => rfl
  | cons c a' ih =>
    rw [List.cons_append, wsRun_cons_pos (ha c (List.mem_cons_self _ _)),
      ih (fun x hx => ha x (List.mem_cons_of_mem _ hx)), List.cons_append]

theorem nlCount_wsRun_le (a b : List Char) :
    nlCount (wsRun a) ≤ nlCount (wsRun (a ++ b)) := by
  induction a with
  | nil => simp [wsRun_nil]
  | cons c a' ih =>
    by_cases h : pyWs c = true
    · rw [List.cons_append, wsRun_cons_pos h, wsRun_cons_pos h, nlCount_cons, nlCount_cons]
      omega
    · have h' : pyWs c = false := by simpa using h
      rw [List.cons_append, wsRun_cons_neg h', wsRun_cons_neg h']

theorem badAt_mono {c : Char} {a : List Char} (b : List Char)
    (h : badAt (c :: a) = true) : badAt (c :: (a ++ b)) = true := by
  obtain ⟨hc, hcount⟩ := badAt_head h
  subst hc
  have hle := nlCount_wsRun_le ('\n' :: a) b
  rw [List.cons_append] at hle
  have h3 : 3 ≤ nlCount (wsRun ('\n' :: (a ++ b))) := le_trans hcount hle
  rw [badAt_cons, decide_eq_true h3]
  simp

theorem hasBad_append_right_false {a b : List Char} (h : hasBad (a ++ b) = false) :
    hasBad b = false := by
  induction a with
  | nil => exact h
  | cons c a' ih => exact ih (hasBad_tail h)

theorem hasBad_append_left_false : ∀ {a : List Char} (b : List Char),
    hasBad (a ++ b) = false → hasBad a = false
  | [], _, _ => rfl
  | c :: a', b, h => by
    rw [hasBad_cons]
    refine Bool.or_eq_false_iff.mpr ⟨?_, hasBad_append_left_false b (hasBad_tail h)⟩
    by_cases hb : badAt (c :: a') = true
    · exfalso
      have hmono := badAt_mono b hb
      have h0 : badAt (c :: (a' ++ b)) = false :=
        badAt_head_false (show hasBad (c :: (a' ++ b)) = false from h)
      rw [hmono] at h0
      cases h0
    · simpa using hb

theorem hasBad_drop {l : List Char} (h : hasBad l = false) :
    ∀ n, hasBad (l.drop n) = false := by
  induction l with
  | nil => intro n; rw [List.drop_nil]; rfl
  | cons c rest ih =>
    intro n
    cases n with
    | zero => exact h
    | succ m => exact ih (hasBad_tail h) m

theorem hasBad_dropWhile {p : Char → Bool} {l : List Char} (h : hasBad l = false) :
    hasBad (l.dropWhile p) = false := by
  induction l with
  | nil => exact h
  | cons c rest ih =>
    by_cases hc : p c = true
    · rw [List.dropWhile_cons_of_pos hc]
      exact ih (hasBad_tail h)
    · rw [List.dropWhile_cons_of_neg (by simpa using hc)]
      exact h

theorem hasBad_pyStrip {l : List Char} (h : hasBad l = false) :
    hasBad (pyStrip l) = false := by
  have h1 : hasBad (l.dropWhile pyWs) = false := hasBad_dropWhile h
  obtain ⟨t, _, hdec⟩ := dropTrail_decomp pyWs (l.dropWhile pyWs)
  rw [hdec] at h1
  exact hasBad_append_left_false t h1

theorem badAt_cons_of_ne {c : Char} {l : List Char} (hc : ¬ c = '\n') :
    badAt (c :: l) = false := by
  rw [badAt_cons]
  simp [hc]

theorem hasBad_no_nl : ∀ {m : List Char}, '\n' ∉ m → hasBad m = false
  | [], _ => rfl
  | c :: m', h => by
    rw [hasBad_cons]
    refine Bool.or_eq_false_iff.mpr
      ⟨?_, hasBad_no_nl (fun x => h (List.mem_cons_of_mem _ x))⟩
    exact badAt_cons_of_ne (fun e => h (by rw [← e]; exact List.mem_cons_self _ _))

theorem hasBad_nlfree_append {a : List Char} (b : List Char) (ha : '\n' ∉ a) :
    hasBad (a ++ b) = hasBad b := by
  induction a with
  | nil => rfl
  | cons c a' ih =>
    rw [List.cons_append, hasBad_cons,
      badAt_cons_of_ne (fun e => ha (by rw [← e]; exact List.mem_cons_self _ _)),
      Bool.false_or]
    exact ih (fun x => ha (List.mem_cons_of_mem _ x))

theorem hasBad_intro_append {b : List Char} (a : List Char) (hb : hasBad b = true) :
    hasBad (a ++ b) = true := by
  induction a with
  | nil => exact hb
  | cons c a' ih =>
    rw [List.cons_append, hasBad_cons, ih, Bool.or_true]

/-- Step 3 leaves untouched the whitespace run at the head of a list that it
does not rewrite (at most two newlines there). -/
theorem wsRun_squeezeBlankLines : ∀ {l : List Char}, nlCount (wsRun l) ≤ 2 →
    wsRun (squeezeBlankLines l) = wsRun l
  | [], _ => by simp [squeezeBlankLines]
  | c :: rest, h => by
    have hnb : ¬ badAt (c :: rest) = true := by
      intro hb
      obtain ⟨_, h3⟩ := badAt_head hb
      omega
    unfold squeezeBlankLines
    rw [dif_neg hnb]
    by_cases hws : pyWs c = true
    · have hle : nlCount (wsRun rest) ≤ 2 := by
        rw [wsRun_cons_pos hws, nlCount_cons] at h
        omega
      rw [wsRun_cons_pos hws, wsRun_cons_pos hws, wsRun_squeezeBlankLines hle]
    · have hws' : pyWs c = false := by simpa using hws
      rw [wsRun_cons_neg hws', wsRun_cons_neg hws']
termination_by l => l.length
decreasing_by
  simp

theorem upToLastNl_decomp (l : List Char) :
    ∃ t, '\n' ∉ t ∧ l = upToLastNl l ++ t := by
  obtain ⟨t, ht, hdec⟩ := dropTrail_decomp (fun c => !(c = '\n')) l
  refine ⟨t, ?_, hdec⟩
  intro hm
  have := ht '\n' hm
  simp at this

/-- Step 3's output contains no position at which its own pattern matches. -/
theorem hasBad_squeezeBlankLines : ∀ (l : List Char), hasBad (squeezeBlankLines l) = false
  | [] => by simp [squeezeBlankLines]; rfl
  | c :: rest => by
    unfold squeezeBlankLines
    by_cases hb : badAt (c :: rest) = true
    · rw [dif_pos hb]
      have hfact :
          nlCount (wsRun ((c :: rest).drop (upToLastNl (wsRun (c :: rest))).length)) = 0 := by
        obtain ⟨t, htn, hdect⟩ := upToLastNl_decomp (wsRun (c :: rest))
        have hsplit : (c :: rest) = wsRun (c :: rest) ++ (c :: rest).dropWhile pyWs :=
          (List.takeWhile_append_dropWhile pyWs (c :: rest)).symm
        rw [hdect, List.append_assoc] at hsplit
        have hdrop := congrArg
          (List.drop (upToLastNl (wsRun (c :: rest))).length) hsplit
        rw [List.drop_left] at hdrop
        have htws : ∀ x ∈ t, pyWs x = true := by
          intro x hx
          apply pyWs_of_mem_wsRun (l := c :: rest)
          rw [hdect]
          exact List.mem_append_right _ hx
        have h2 : wsRun ((c :: rest).dropWhile pyWs) = [] := by
          cases hd : (c :: rest).dropWhile pyWs with
          | nil => rfl
          | cons d m =>
            have hdw : pyWs d = false := head?_dropWhile_false (by rw [hd]; rfl)
            rw [wsRun_cons_neg hdw]
        rw [hdrop, wsRun_append_all _ htws, h2, List.append_nil]
        exact nlCount_eq_zero htn
      have hih := hasBad_squeezeBlankLines
        ((c :: rest).drop (upToLastNl (wsRun (c :: rest))).length)
      have htwp : wsRun (squeezeBlankLines
            ((c :: rest).drop (upToLastNl (wsRun (c :: rest))).length)) =
          wsRun ((c :: rest).drop (upToLastNl (wsRun (c :: rest))).length) :=
        wsRun_squeezeBlankLines (by omega)
      rw [hasBad_cons, hasBad_cons]
      have hb1 : badAt ('\n' :: '\n' :: squeezeBlankLines
          ((c :: rest).drop (upToLastNl (wsRun (c :: rest))).length)) = false := by
        apply badAt_false_of_count
        rw [wsRun_cons_pos pyWs_nl, wsRun_cons_pos pyWs_nl, nlCount_cons_nl,
          nlCount_cons_nl, htwp, hfact]
        omega
      have hb2 : badAt ('\n' :: squeezeBlankLines
          ((c :: rest).drop (upToLastNl (wsRun (c :: rest))).length)) = false := by
        apply badAt_false_of_count
        rw [wsRun_cons_pos pyWs_nl, nlCount_cons_nl, htwp, hfact]
        omega
      rw [hb1, hb2, hih]
      rfl
    · rw [dif_neg hb]
      rw [hasBad_cons]
      refine Bool.or_eq_false_iff.mpr ⟨?_, hasBad_squeezeBlankLines rest⟩
      by_cases hc : c = '\n'
      · subst hc
        apply badAt_false_of_count
        have hcount : nlCount (wsRun ('\n' :: rest)) < 3 := by
          by_contra hcc
          push_neg at hcc
          exact hb (by rw [badAt_cons, decide_eq_true hcc]; simp)
        rw [wsRun_cons_pos pyWs_nl, nlCount_cons_nl] at hcount
        have hle2 : nlCount (wsRun rest) ≤ 2 := by omega
        rw [wsRun_cons_pos pyWs_nl, nlCount_cons_nl, wsRun_squeezeBlankLines hle2]
        omega
      · exact badAt_cons_of_ne hc
termination_by l => l.length
decreasing_by
  · obtain ⟨hc, _⟩ := badAt_head hb
    have hmem : '\n' ∈ wsRun (c :: rest) := by
      subst hc
      rw [wsRun_cons_pos pyWs_nl]
      exact List.mem_cons_self _ _
    have hpos := upToLastNl_length_pos hmem
    rw [List.length_drop]
    have : 0 < (c :: rest).length := by simp
    omega
  · simp

/-! ### `linesOk` is established by step 4; `hasBad` survives steps 4 and 5 -/

theorem pairOk_nl_nl : pairOk '\n' '\n' = true := by decide

theorem pyStrip_nil_all_ws {l : List Char} (h : pyStrip l = []) :
    ∀ x ∈ l, pyWs x = true := by
  obtain ⟨a, b, hA, hB, hdec⟩ := pyStrip_decomp l
  rw [h] at hdec
  intro x hx
  rw [hdec] at hx
  simp only [List.append_nil, List.mem_append] at hx
  rcases hx with hx | hx
  · exact hA x hx
  · exact hB x hx

theorem linesOk_stripLines : ∀ (l : List Char), linesOk (stripLines l) = true
  | l => by
    show linesOk (stripLines l) = true
    by_cases hm : '\n' ∈ l
    · obtain ⟨l₁, l₂, hn, hdec⟩ := break_of_mem hm
      rw [hdec, stripLines_break l₂ hn]
      have hPnl : '\n' ∉ pyStrip l₁ := fun hx => hn (mem_of_mem_pyStrip hx)
      have hih := linesOk_stripLines l₂
      obtain ⟨hiso₂, hhead₂, hlast₂⟩ := linesOk_split hih
      apply linesOk_intro
      · apply isolated_append_intro (isolated_no_nl hPnl)
        · apply isolated_cons_intro hiso₂
          intro c hc
          by_cases hws : pyWs c = true
          · have he : c = '\n' := headOkB_elim hhead₂ hc hws
            rw [he]
            exact pairOk_nl_nl
          · exact pairOk_of_right_not_ws (by simpa using hws)
        · intro x y hx _
          exact pairOk_of_left_not_ws (pyStrip_last_false hx)
      · apply headOkB_of_head
        intro c hc
        cases hP : pyStrip l₁ with
        | nil =>
          rw [hP] at hc
          simp only [List.nil_append, List.head?_cons, Option.some.injEq] at hc
          exact Or.inr hc.symm
        | cons d m =>
          rw [hP] at hc
          simp only [List.cons_append, List.head?_cons, Option.some.injEq] at hc
          rw [← hc]
          exact Or.inl (pyStrip_head_false (by rw [hP]; rfl))
      · apply lastOkB_of_getLast
        intro c hc
        rw [List.getLast?_append_of_ne_nil _ (by simp)] at hc
        cases hS : stripLines l₂ with
        | nil =>
          rw [hS] at hc
          simp only [List.getLast?_singleton, Option.some.injEq] at hc
          exact Or.inr hc.symm
        | cons d m =>
          rw [hS, List.getLast?_cons_cons, ← hS] at hc
          by_cases hws : pyWs c = true
          · exact Or.inr (lastOkB_elim hlast₂ hc hws)
          · exact Or.inl (by simpa using hws)
    · rw [stripLines_no_nl hm]
      have hPnl : '\n' ∉ pyStrip l := fun hx => hm (mem_of_mem_pyStrip hx)
      apply linesOk_intro
      · exact isolated_no_nl hPnl
      · apply headOkB_of_head
        intro c hc
        exact Or.inl (pyStrip_head_false hc)
      · apply lastOkB_of_getLast
        intro c hc
        exact Or.inl (pyStrip_last_false hc)
termination_by l => l.length
decreasing_by
  show l₂.length < l.length
  rw [hdec]
  simp
  omega

theorem linesOk_pyStrip {l : List Char} (h : linesOk l = true) :
    linesOk (pyStrip l) = true := by
  obtain ⟨hiso, _, _⟩ := linesOk_split h
  apply linesOk_intro
  · obtain ⟨a, b, _, _, hdec⟩ := pyStrip_decomp l
    rw [hdec] at hiso
    exact isolated_append_right (a := a) (isolated_append_left b hiso)
  · apply headOkB_of_head
    intro c hc
    exact Or.inl (pyStrip_head_false hc)
  · apply lastOkB_of_getLast
    intro c hc
    exact Or.inl (pyStrip_last_false hc)

theorem hasBad_stripLines : ∀ {l : List Char}, hasBad l = false →
    hasBad (stripLines l) = false
  | l, h => by
    by_cases hm : '\n' ∈ l
    · obtain ⟨l₁, l₂, hn, hdec⟩ := break_of_mem hm
      rw [hdec] at h
      rw [hdec, stripLines_break l₂ hn]
      have hPnl : '\n' ∉ pyStrip l₁ := fun hx => hn (mem_of_mem_pyStrip hx)
      have h₂ : hasBad l₂ = false := hasBad_tail (hasBad_append_right_false h)
      have hih := hasBad_stripLines h₂
      rw [hasBad_nlfree_append _ hPnl, hasBad_cons]
      refine Bool.or_eq_false_iff.mpr ⟨?_, hih⟩
      apply badAt_false_of_count
      rw [wsRun_cons_pos pyWs_nl, nlCount_cons_nl]
      have hbound : nlCount (wsRun (stripLines l₂)) ≤ 1 := by
        by_cases hm₂ : '\n' ∈ l₂
        · obtain ⟨m₁, m₂, hmn, hdec₂⟩ := break_of_mem hm₂
          rw [hdec₂, stripLines_break m₂ hmn]
          by_cases hP : pyStrip m₁ = []
          · rw [hP, List.nil_append, wsRun_cons_pos pyWs_nl, nlCount_cons_nl]
            have hzero : nlCount (wsRun (stripLines m₂)) = 0 := by
              by_cases hm₃ : '\n' ∈ m₂
              · obtain ⟨k₁, k₂, hkn, hdec₃⟩ := break_of_mem hm₃
                rw [hdec₃, stripLines_break k₂ hkn]
                by_cases hK : pyStrip k₁ = []
                · exfalso
                  have hm₁ws : ∀ x ∈ m₁, pyWs x = true := pyStrip_nil_all_ws hP
                  have hk₁ws : ∀ x ∈ k₁, pyWs x = true := pyStrip_nil_all_ws hK
                  have hbadTrue : hasBad
                      (l₁ ++ '\n' :: (m₁ ++ '\n' :: (k₁ ++ '\n' :: k₂))) = true := by
                    apply hasBad_intro_append
                    rw [hasBad_cons]
                    have hba : badAt
                        ('\n' :: (m₁ ++ '\n' :: (k₁ ++ '\n' :: k₂))) = true := by
                      have h3 : 3 ≤ nlCount
                          (wsRun ('\n' :: (m₁ ++ '\n' :: (k₁ ++ '\n' :: k₂)))) := by
                        rw [wsRun_cons_pos pyWs_nl, nlCount_cons_nl,
                          wsRun_append_all _ hm₁ws, wsRun_cons_pos pyWs_nl,
                          wsRun_append_all _ hk₁ws, wsRun_cons_pos pyWs_nl,
                          nlCount_append, nlCount_cons_nl, nlCount_append,
                          nlCount_cons_nl]
                        omega
                      rw [badAt_cons, decide_eq_true h3]
                      simp
                    rw [hba]
                    rfl
                  rw [hdec₂, hdec₃] at h
                  rw [hbadTrue] at h
                  cases h
                · cases hsk : pyStrip k₁ with
                  | nil => exact absurd hsk hK
                  | cons d m =>
                    have hdws : pyWs d = false := pyStrip_head_false (by rw [hsk]; rfl)
                    rw [List.cons_append, wsRun_cons_neg hdws]
                    rfl
              · rw [stripLines_no_nl hm₃]
                apply nlCount_eq_zero
                intro hx
                exact hm₃ (mem_of_mem_pyStrip (mem_of_mem_wsRun hx))
            rw [hzero]
          · cases hsP : pyStrip m₁ with
            | nil => exact absurd hsP hP
            | cons d m =>
              have hdws : pyWs d = false := pyStrip_head_false (by rw [hsP]; rfl)
              rw [List.cons_append, wsRun_cons_neg hdws]
              simp [nlCount]
        · rw [stripLines_no_nl hm₂]
          have hz : nlCount (wsRun (pyStrip l₂)) = 0 := by
            apply nlCount_eq_zero
            intro hx
            exact hm₂ (mem_of_mem_pyStrip (mem_of_mem_wsRun hx))
          omega
      omega
    · rw [stripLines_no_nl hm]
      apply hasBad_no_nl
      intro hx
      exact hm (mem_of_mem_pyStrip hx)
termination_by l => l.length
decreasing_by
  rw [hdec]
  simp
  omega

/-! ### The invariant bundle: established by `cleanList`, and a fixed point -/

theorem goodText_split {l : List Char} (h : goodText l = true) :
    noDbl l = true ∧ hasBad l = false ∧ linesOk l = true ∧ pyStrip l = l := by
  unfold goodText at h
  simp only [Bool.and_eq_true, Bool.not_eq_true', decide_eq_true_eq] at h
  exact ⟨h.1.1.1, h.1.1.2, h.1.2, h.2⟩

theorem goodText_intro {l : List Char} (h1 : noDbl l = true) (h2 : hasBad l = false)
    (h3 : linesOk l = true) (h4 : pyStrip l = l) : goodText l = true := by
  unfold goodText
  simp [h1, h2, h3, h4]

theorem cleanList_of_goodText {l : List Char} (h : goodText l = true) :
    cleanList l = l := by
  obtain ⟨h1, h2, h3, h4⟩ := goodText_split h
  unfold cleanList
  rw [squeezeSpaces_of_noDbl h1, squeezeNewlines_of_noBad h2,
    squeezeBlankLines_of_noBad h2, stripLines_of_linesOk h3, h4]

theorem goodText_cleanList (l : List Char) : goodText (cleanList l) = true := by
  apply goodText_intro
  · exact noDbl_pyStrip (noDbl_stripLines (noDbl_squeezeBlankLines
      (noDbl_squeezeNewlines (noDbl_squeezeSpaces l))))
  · exact hasBad_pyStrip (hasBad_stripLines (hasBad_squeezeBlankLines _))
  · exact linesOk_pyStrip (linesOk_stripLines _)
  · exact pyStrip_idem _

theorem cleanList_idem (l : List Char) : cleanList (cleanList l) = cleanList l :=
  cleanList_of_goodText (goodText_cleanList l)

/-! ## Selector classification: `is_xpath` (`scrape.py` lines 55–76)

The source tests nine regular expressions against the expression string and
returns true when any of them matches somewhere in the string (`re.search`).
Each pattern is a literal, an anchored character, or a
"bracket pair" pattern `\([^)]*\)` / `\[[^\]]*\]`; the embedding below gives
each its exact matching semantics. -/

/-- `needle` occurs as a contiguous substring of the argument (the semantics
of `re.search` on a literal pattern). -/
def containsSub (needle : List Char) : List Char → Bool
  | [] => needle.isPrefixOf []
  | c :: rest => needle.isPrefixOf (c :: rest) || containsSub needle rest

/-- `re.search` of `o[^c]*c` (with `o`, `c` the opening and closing
characters): scan to the first `o`; the pattern matches somewhere iff a `c`
occurs after it.  (If any `o` is followed by a later `c`, the earliest such
pair with no intervening `c` is a match, and conversely.) -/
def patPair (o c : Char) (l : List Char) : Bool :=
  match l.dropWhile (fun x => !(x = o)) with
  | [] => false
  | _ :: rest => rest.contains c

/-- `is_xpath` from `scrape.py` (lines 55–76): the expression is classified
as XPath when any of the nine patterns matches. -/
def is_xpath (s : String) : Bool :=
  (s.data.head? == some '/') ||
  containsSub [':', ':'] s.data ||
  patPair '(' ')' s.data ||
  patPair '[' ']' s.data ||
  containsSub "last()".data s.data ||
  containsSub "position()".data s.data ||
  containsSub "contains(".data s.data ||
  containsSub "text()".data s.data ||
  s.data.contains '@'

/-- The two selector kinds of the data model. -/
inductive SelectorKind where
  | xpath
  | css
deriving DecidableEq

/-- The classification step of `main` (line 160): an expression is used as
XPath when `is_xpath` holds and converted from CSS otherwise. -/
def classify (s : String) : SelectorKind :=
  if is_xpath s then SelectorKind.xpath else SelectorKind.css

/-- The spec's description of the classifier (§4.1): starts with `/`;
contains `::`; contains a parenthesized call; contains a bracketed
predicate; contains `last()`, `position()`, `contains(`, `text()`;
contains `@`. -/
def SpecMatchesXPath (s : String) : Prop :=
  (∃ t, s.data = '/' :: t) ∨
  ([':', ':'] <:+: s.data) ∨
  (∃ a m b, s.data = a ++ '(' :: m ++ ')' :: b ∧ ')' ∉ m) ∨
  (∃ a m b, s.data = a ++ '[' :: m ++ ']' :: b ∧ ']' ∉ m) ∨
  ("last()".data <:+: s.data) ∨
  ("position()".data <:+: s.data) ∨
  ("contains(".data <:+: s.data) ∨
  ("text()".data <:+: s.data) ∨
  '@' ∈ s.data

theorem contains_iff_mem {l : List Char} {x : Char} : l.contains x = true ↔ x ∈ l := by
  show l.elem x = true ↔ x ∈ l
  exact List.elem_iff

theorem containsSub_iff (n : List Char) : ∀ (l : List Char),
    containsSub n l = true ↔ n <:+: l
  | [] => by
    unfold containsSub
    rw [List.isPrefixOf_iff_prefix, List.prefix_nil, List.infix_nil]
  | a :: l' => by
    unfold containsSub
    rw [Bool.or_eq_true, List.isPrefixOf_iff_prefix, containsSub_iff n l',
      List.infix_cons_iff]

theorem mem_split_first {x : Char} : ∀ {l : List Char}, x ∈ l →
    ∃ l₁ l₂, x ∉ l₁ ∧ l = l₁ ++ x :: l₂
  | [], h => absurd h (by simp)
  | c :: rest, h => by
    by_cases hc : c = x
    · exact ⟨[], rest, by simp, by simp [hc]⟩
    · have hr : x ∈ rest := by
        rcases List.mem_cons.mp h with e | hr
        · exact absurd e.symm hc
        · exact hr
      obtain ⟨l₁, l₂, hn, hdec⟩ := mem_split_first hr
      refine ⟨c :: l₁, l₂, ?_, by simp [hdec]⟩
      intro m
      rcases List.mem_cons.mp m with e | m'
      · exact hc e.symm
      · exact hn m'

theorem patPair_exists {o c : Char} : ∀ (l : List Char),
    patPair o c l = true ↔ ∃ a b, l = a ++ o :: b ∧ c ∈ b
  | [] => by
    unfold patPair
    simp only [List.dropWhile_nil]
    constructor
    · intro h
      cases h
    · rintro ⟨a, b, he, _⟩
      cases a <;> cases he
  | c' :: rest => by
    by_cases hco : c' = o
    · subst hco
      unfold patPair
      rw [List.dropWhile_cons_of_neg (by simp)]
      rw [contains_iff_mem]
      constructor
      · intro h
        exact ⟨[], rest, rfl, h⟩
      · rintro ⟨a, b, he, hc⟩
        cases a with
        | nil =>
          simp only [List.nil_append, List.cons.injEq] at he
          rw [he.2]
          exact hc
        | cons d a' =>
          simp only [List.cons_append, List.cons.injEq] at he
          rw [he.2]
          exact List.mem_append_right _ (List.mem_cons_of_mem _ hc)
    · unfold patPair
      rw [List.dropWhile_cons_of_pos (by simpa using hco)]
      rw [show (match rest.dropWhile (fun x => !(x = o)) with
          | [] => false
          | _ :: r => r.contains c) = patPair o c rest from rfl]
      rw [patPair_exists rest]
      constructor
      · rintro ⟨a, b, rfl, hc⟩
        exact ⟨c' :: a, b, rfl, hc⟩
      · rintro ⟨a, b, he, hc⟩
        cases a with
        | nil =>
          simp only [List.nil_append, List.cons.injEq] at he
          exact absurd he.1 hco
        | cons d a' =>
          simp only [List.cons_append, List.cons.injEq] at he
          exact ⟨a', b, he.2, hc⟩

theorem patPair_iff_regex {o c : Char} (l : List Char) :
    patPair o c l = true ↔ ∃ a m b, l = a ++ o :: m ++ c :: b ∧ c ∉ m := by
  rw [patPair_exists]
  constructor
  · rintro ⟨a, b, rfl, hc⟩
    obtain ⟨m, b₂, hnm, rfl⟩ := mem_split_first hc
    exact ⟨a, m, b₂, by simp, hnm⟩
  · rintro ⟨a, m, b, rfl, _⟩
    exact ⟨a, m ++ c :: b, by simp,
      List.mem_append_right _ (List.mem_cons_self _ _)⟩

theorem head_slash_iff (l : List Char) :
    (l.head? == some '/') = true ↔ ∃ t, l = '/' :: t := by
  cases l with
  | nil => simp
  | cons a t =>
    simp only [List.head?_cons, beq_iff_eq, Option.some.injEq, List.cons.injEq]
    constructor
    · intro h
      exact ⟨t, h, rfl⟩
    · rintro ⟨t', h, rfl⟩
      exact h

theorem is_xpath_iff (s : String) : is_xpath s = true ↔ SpecMatchesXPath s := by
  unfold is_xpath SpecMatchesXPath
  simp only [Bool.or_eq_true]
  rw [head_slash_iff, containsSub_iff, patPair_iff_regex, patPair_iff_regex,
    containsSub_iff, containsSub_iff, containsSub_iff, containsSub_iff,
    contains_iff_mem]
  simp only [or_assoc]

/-! ## The extraction engine of `main` (`scrape.py` lines 206–257)

The lxml document tree is an external collaborator; it is modelled by its
observable interface: a function mapping an XPath expression string to the
list of nodes it evaluates to.  A node is either a string result (text
nodes, attribute results, scalar results) or an element carrying the three
projections `main` uses: its text content (`text_content()` /
`itertext()`), its attribute list (`el.get(...)`), and its pretty-printed
HTML serialisation (`etree.tostring(...)`). -/

inductive XNode where
  | str (s : String)
  | elem (textContent : String) (attrs : List (String × String)) (html : String)

/-- `el.get(name)` on an element's attribute list (`None` when absent). -/
def lookupAttr (attrs : List (String × String)) (name : String) : Option String :=
  (attrs.find? (fun p => p.1 == name)).map (fun p => p.2)

/-- The command-line options that govern the extraction loop
(`-a`, `-b`, `-t`, `-x`). -/
structure Opts where
  argument : String
  body : Bool
  text : Bool
  check_existence : Bool

/-- `text.strip()` on strings. -/
def pyStripStr (s : String) : String := ⟨pyStrip s.data⟩

/-- The per-node rendering of `main`'s inner loop (lines 216–236): a string
result is used directly (cleaned in text mode); in text mode an element
contributes its cleaned text content; otherwise, with no attribute argument,
the element's HTML serialisation, and with an attribute argument the
attribute's value — or nothing when the attribute is absent (`el.get`
returns `None`). -/
def renderNode (opts : Opts) (el : XNode) : Option String :=
  match el with
  | XNode.str s => some (if opts.text then clean_text s else s)
  | XNode.elem tc attrs html =>
    if opts.text then some (clean_text tc)
    else if opts.argument = "" then some html
    else lookupAttr attrs opts.argument

/-- Lines 237–238: every rendered (non-`None`) result is stripped and
appended to the result list. -/
def processEls (opts : Opts) (els : List XNode) : List String :=
  els.filterMap (fun el => (renderNode opts el).map pyStripStr)

/-- Outcome of the expression loop: an early `sys.exit` with a code, or the
accumulated result list. -/
inductive LoopOut where
  | exited (code : Nat)
  | results (rs : List String)

/-- The expression loop of `main` (lines 206–238): for each expression, the
document is queried; in existence-check mode the process exits immediately —
code 1 when the current expression has no matches, code 0 otherwise — and
in normal mode all matches are rendered and appended. -/
def runLoop (doc : String → List XNode) (opts : Opts) :
    List String → List String → LoopOut
  | [], acc => LoopOut.results acc
  | e :: rest, acc =>
    if opts.check_existence then
      LoopOut.exited (if (doc e).length = 0 then 1 else 0)
    else
      runLoop doc opts rest (acc ++ processEls opts (doc e))

/-- `'\n'.join(results)`. -/
def joinLines (rs : List String) : String :=
  ⟨joinNl (rs.map String.data)⟩

/-- Lines 240–244: in text mode a non-empty result list is joined with
newlines, cleaned once as a unit, and replaced by that single result — or by
nothing when the cleaned join is the empty string. -/
def finalize (opts : Opts) (results : List String) : List String :=
  if opts.text ∧ results ≠ [] then
    if clean_text (joinLines results) = "" then []
    else [clean_text (joinLines results)]
  else results

/-- Lines 247–257: output assembly.  With `-b` and not `-t` the newline-
terminated results are wrapped in a doctype/html/body envelope; otherwise
each result is printed on its own line. -/
def assemble (opts : Opts) (results : List String) : String :=
  if opts.body ∧ ¬opts.text then
    "<!DOCTYPE html>\n<html>\n<body>\n" ++
      String.join (results.map (fun r => r ++ "\n")) ++ "</body>\n</html>\n"
  else
    String.join (results.map (fun r => r ++ "\n"))

/-- The whole extraction stage of `main` on already-prepared expressions:
run the loop, apply the text-mode final cleaning, assemble the output.  The
value is the observable pair (exit code, stdout text); an early exit prints
nothing.  (A fall-through of `main` returns `None` and `exit(None)` is
status 0.) -/
def mainRun (doc : String → List XNode) (opts : Opts) (exprs : List String) :
    Nat × String :=
  match runLoop doc opts exprs [] with
  | LoopOut.exited code => (code, "")
  | LoopOut.results rs => (0, assemble opts (finalize opts rs))

/-- The default expression substituted in text mode (line 158). -/
def defaultTextExpr : String :=
  "//body//text()[not(ancestor::script) and not(ancestor::style)]"

/-- The expression-preparation stage of `main` (lines 155–160): with text
mode and no expressions, the single default body-text expression; otherwise
each expression is kept when `is_xpath` accepts it and converted from CSS
otherwise (the CSS translator, `cssselect.GenericTranslator`, is an external
collaborator passed as a function; its failure exits the process and is not
exercised here). -/
def prepareExprs (cssConv : String → String) (textMode : Bool)
    (exprs : List String) : List String :=
  if textMode ∧ exprs = [] then [defaultTextExpr]
  else exprs.map (fun e => if is_xpath e then e else cssConv e)

/-! ## Charset detection (`scrape.py` lines 165–186) -/

/-- `html_bytes[:1024].decode('ascii', errors='ignore').lower()`: keep the
bytes below 128, as lowercased characters. -/
def asciiIgnoreLower (bytes : List Nat) : List Char :=
  (bytes.filter (fun b => b < 128)).map (fun b => (Char.ofNat b).toLower)

/-- `detect_charset` (lines 165–175): scan only the first 1024 bytes for a
`charset=` meta declaration.  The regular-expression search itself is done
by Python's `re` (an external collaborator), modelled by the `metaSearch`
argument. -/
def detect_charset (metaSearch : List Char → Option String) (inp : List Nat) :
    Option String :=
  metaSearch (asciiIgnoreLower (inp.take 1024))

/-- Outcome of the external `inp.decode(charset).encode('utf-8')` step of
line 183, split along Python's exception structure: success with new bytes;
an exception of exactly the class named by line 184's handler,
`(UnicodeDecodeError, LookupError)`; or an exception outside that class —
notably `UnicodeEncodeError`, raised when the decode succeeds but its result
cannot be re-encoded as UTF-8 (for example `unicode_escape` decoding a
`\ud800` escape to a lone surrogate), which is a distinct class from
`UnicodeDecodeError` and is caught by no handler in `main`. -/
inductive DecodeOutcome where
  | ok (out : List Nat)
  | caughtErr
  | uncaughtErr

/-- Result of the declared-charset step: either execution proceeds with a
byte sequence, or an exception escapes every handler and the invocation
terminates with a traceback. -/
inductive CharsetStepResult where
  | proceed (bytes : List Nat)
  | crashed

/-- Lines 178–186: when a charset was detected, run
`inp.decode(charset).encode('utf-8')` under
`except (UnicodeDecodeError, LookupError): pass`: a failure of the caught
class leaves the input unchanged, a success replaces it, and any other
exception propagates — line 201's outer handler catches only
`etree.XMLSyntaxError` and `UnicodeDecodeError`, so it escapes `main` and
kills the process. -/
def applyDetectedCharset (codec : String → List Nat → DecodeOutcome)
    (metaSearch : List Char → Option String) (inp : List Nat) :
    CharsetStepResult :=
  match detect_charset metaSearch inp with
  | none => CharsetStepResult.proceed inp
  | some cs =>
    match codec cs inp with
    | DecodeOutcome.ok out => CharsetStepResult.proceed out
    | DecodeOutcome.caughtErr => CharsetStepResult.proceed inp
    | DecodeOutcome.uncaughtErr => CharsetStepResult.crashed

/-! ## The `-eb` misuse guard (`scrape.py` lines 87–89) -/

/-- `' '.join(argv)` on character lists. -/
def joinSep (sep : Char) : List (List Char) → List Char
  | [] => []
  | [l] => l
  | l :: ls => l ++ sep :: joinSep sep ls

/-- Line 88: `'-eb' in ' '.join(sys.argv)`. -/
def ebGuard (argv : List String) : Bool :=
  containsSub "-eb".data (joinSep ' ' (argv.map String.data))

/-- The advice message of the guard's `sys.exit` call (line 89). -/
def ebAdvice : String :=
  "Error: The correct order is -be (body first, then expression). Please use -be instead of -eb."

/-- Observable outcome of a whole invocation: a usage exit before any work,
or a completed run of the extraction stage. -/
inductive ProgOut where
  | usageExit (code : Nat) (message : String)
  | ran (result : Nat × String)

/-- The entry stage of `main` (lines 87–89): before any input is read and
before any expression is evaluated, the space-joined argument vector is
checked for the literal substring `-eb`; if present, the process prints the
advice and exits (a string argument to `sys.exit` gives status 1). -/
def mainEntry (argv : List String) (doc : String → List XNode) (opts : Opts)
    (exprs : List String) : ProgOut :=
  if ebGuard argv then ProgOut.usageExit 1 ebAdvice
  else ProgOut.ran (mainRun doc opts exprs)

/-! ## Claim theorems -/

/-- C1: The text normalizer `clean_text` is idempotent: for every string
`s`, applying the five normalisation steps (collapse space runs, collapse
3+ newline runs, collapse newline/whitespace-line/newline patterns, strip
every line, strip the whole text) twice yields the same result as applying
them once. -/
theorem clean_text_idempotent (s : String) :
    clean_text (clean_text s) = clean_text s := by
  unfold clean_text
  congr 1
  exact cleanList_idem s.data

/-- C2: Selector classification is a total deterministic function of the
expression string alone: every string maps to exactly one of XPath and CSS —
XPath exactly when one of the listed patterns matches (starts with `/`,
contains `::`, parenthesized content, bracketed content, `last()`,
`position()`, `contains(`, `text()`, or `@`), CSS otherwise. -/
theorem classify_total_deterministic (s : String) :
    (classify s = SelectorKind.xpath ↔ SpecMatchesXPath s) ∧
    (classify s = SelectorKind.css ↔ ¬ SpecMatchesXPath s) := by
  unfold classify
  by_cases h : is_xpath s = true
  · rw [if_pos h]
    refine ⟨⟨fun _ => (is_xpath_iff s).mp h, fun _ => rfl⟩, ?_, ?_⟩
    · intro he
      exact absurd he (by decide)
    · intro hn
      exact absurd ((is_xpath_iff s).mp h) hn
  · rw [if_neg h]
    have hf : ¬ SpecMatchesXPath s := fun hs => h ((is_xpath_iff s).mpr hs)
    exact ⟨⟨fun he => absurd he (by decide), fun hs => absurd hs hf⟩,
      ⟨fun _ => hf, fun _ => rfl⟩⟩

/-- C3: In existence-check mode, on any document and any non-empty ordered
expression list, the run terminates at the first expression: it exits with
code 1 when that expression's match count is zero and 0 otherwise, prints
nothing, and the outcome does not depend on the remaining expressions. -/
theorem existence_mode_short_circuits (doc : String → List XNode) (opts : Opts)
    (e : String) (rest rest' : List String) (h : opts.check_existence = true) :
    mainRun doc opts (e :: rest) = ((if (doc e).length = 0 then 1 else 0), "") ∧
    mainRun doc opts (e :: rest) = mainRun doc opts (e :: rest') := by
  constructor <;> simp [mainRun, runLoop, h]

theorem existence_mode_short_circuits_witness :
    mainRun (fun _ => []) ⟨"", false, false, true⟩ ["p", "q"] = (1, "") ∧
    mainRun (fun _ => []) ⟨"", false, false, true⟩ ["p", "q"] =
      mainRun (fun _ => []) ⟨"", false, false, true⟩ ["p", "r"] := by
  have h := existence_mode_short_circuits (fun _ => [])
    ⟨"", false, false, true⟩ "p" ["q"] ["r"] rfl
  exact ⟨by rw [h.1]; rfl, h.2⟩

/-- Modelled from the spec: lxml's XPath engine (an external collaborator)
evaluating the default body-text expression on the document
`<html><body><script>x</script><p>Hello  world</p></body></html>` yields the
body's text nodes outside `script`/`style` subtrees, i.e. exactly the text
node `"Hello  world"` (the script content `x` is excluded); every other
expression is irrelevant to the claim and evaluates to nothing. -/
def docC4 : String → List XNode := fun e =>
  if e = defaultTextExpr then [XNode.str "Hello  world"] else []

theorem cleanList_no_bad {l : List Char}
    (h : hasBad (squeezeNewlines (squeezeSpaces l)) = false) :
    cleanList l = pyStrip (stripLines (squeezeNewlines (squeezeSpaces l))) := by
  unfold cleanList
  rw [squeezeBlankLines_of_noBad h]

theorem clean_text_hello : clean_text "Hello  world" = "Hello world" := by
  show (⟨cleanList "Hello  world".data⟩ : String) = "Hello world"
  rw [cleanList_no_bad (by decide)]
  exact congrArg String.mk (by decide)

theorem clean_text_hello_fixed : clean_text "Hello world" = "Hello world" := by
  show (⟨cleanList "Hello world".data⟩ : String) = "Hello world"
  rw [cleanList_of_goodText (show goodText "Hello world".data = true from by decide)]

/-- C4: When text mode is requested with zero expressions, the program
substitutes exactly the single default expression
`//body//text()[not(ancestor::script) and not(ancestor::style)]`, and on the
document `<html><body><script>x</script><p>Hello  world</p></body></html>`
the output is the single normalized line `"Hello world"` with exit code 0. -/
theorem text_mode_default_expression (conv : String → String) :
    prepareExprs conv true [] = [defaultTextExpr] ∧
    mainRun docC4 ⟨"", false, true, false⟩ (prepareExprs conv true []) =
      (0, "Hello world\n") := by
  have hprep : prepareExprs conv true [] = [defaultTextExpr] := by
    unfold prepareExprs
    rw [if_pos ⟨rfl, rfl⟩]
  refine ⟨hprep, ?_⟩
  rw [hprep]
  have hdoc : docC4 defaultTextExpr = [XNode.str "Hello  world"] := by
    unfold docC4
    rw [if_pos rfl]
  have hps : pyStripStr "Hello world" = "Hello world" :=
    congrArg String.mk (by decide)
  have hprocess : processEls ⟨"", false, true, false⟩ [XNode.str "Hello  world"] =
      ["Hello world"] := by
    unfold processEls renderNode
    simp [clean_text_hello, hps]
  have hloop : runLoop docC4 ⟨"", false, true, false⟩ [defaultTextExpr] [] =
      LoopOut.results ["Hello world"] := by
    unfold runLoop
    rw [if_neg (by simp), hdoc, hprocess]
    rfl
  have hfin : finalize ⟨"", false, true, false⟩ ["Hello world"] = ["Hello world"] := by
    unfold finalize
    rw [if_pos ⟨rfl, by simp⟩]
    have hj : joinLines ["Hello world"] = "Hello world" := rfl
    rw [hj, clean_text_hello_fixed]
    rw [if_neg (by decide)]
  unfold mainRun
  rw [hloop]
  show (0, assemble ⟨"", false, true, false⟩
    (finalize ⟨"", false, true, false⟩ ["Hello world"])) = (0, "Hello world\n")
  rw [hfin]
  exact congrArg (Prod.mk 0) (by decide)

/-- C5: In text mode, after all expressions are processed, the result set is
joined with newlines, normalized once as a single unit, and replaced by a
single combined result (empty when the joined text normalizes to the empty
string); the final result list never keeps per-expression entries — its
length is at most 1. -/
theorem text_mode_final_single (opts : Opts) (rs : List String)
    (h : opts.text = true) :
    finalize opts rs =
      (if rs = [] then []
       else if clean_text (joinLines rs) = "" then []
       else [clean_text (joinLines rs)]) ∧
    (finalize opts rs).length ≤ 1 := by
  unfold finalize
  by_cases hrs : rs = []
  · subst hrs
    rw [if_neg (by simp), if_pos rfl]
    exact ⟨rfl, by simp⟩
  · rw [if_pos ⟨h, hrs⟩, if_neg hrs]
    by_cases hct : clean_text (joinLines rs) = ""
    · rw [if_pos hct]
      exact ⟨rfl, by simp⟩
    · rw [if_neg hct]
      exact ⟨rfl, by simp⟩

theorem text_mode_final_single_witness :
    (finalize ⟨"", false, true, false⟩ ["a", "b"] =
      (if (["a", "b"] : List String) = [] then []
       else if clean_text (joinLines ["a", "b"]) = "" then []
       else [clean_text (joinLines ["a", "b"])])) ∧
    (finalize ⟨"", false, true, false⟩ ["a", "b"]).length ≤ 1 :=
  text_mode_final_single ⟨"", false, true, false⟩ ["a", "b"] rfl

/-- C6: In attribute mode (an attribute name requested, text mode off), a
matched element lacking the requested attribute contributes no entry to the
result set, and a matched element carrying it contributes exactly its value
trimmed of leading and trailing whitespace. -/
theorem attribute_mode_rendering (opts : Opts) (tc : String)
    (attrs : List (String × String)) (html : String)
    (hT : opts.text = false) (hA : ¬ opts.argument = "") :
    (lookupAttr attrs opts.argument = none →
      processEls opts [XNode.elem tc attrs html] = []) ∧
    (∀ v, lookupAttr attrs opts.argument = some v →
      processEls opts [XNode.elem tc attrs html] = [pyStripStr v]) := by
  unfold processEls renderNode
  constructor
  · intro hnone
    simp [hT, hA, hnone]
  · intro v hv
    simp [hT, hA, hv]

theorem attribute_mode_rendering_witness :
    (lookupAttr [("id", "x")] "href" = none →
      processEls ⟨"href", false, false, false⟩
        [XNode.elem "t" [("id", "x")] "<a/>"] = []) ∧
    (∀ v, lookupAttr [("id", "x")] "href" = some v →
      processEls ⟨"href", false, false, false⟩
        [XNode.elem "t" [("id", "x")] "<a/>"] = [pyStripStr v]) :=
  attribute_mode_rendering ⟨"href", false, false, false⟩ "t" [("id", "x")] "<a/>"
    rfl (by decide)

/-- The failing input for C7, as a byte sequence: the ASCII bytes of
`<meta x charset=unicode_escape>` followed by the six ASCII characters of
the literal escape `\ud800`.  On these bytes `detect_charset` finds
`unicode_escape` (matched by `[\w-]+`), `inp.decode('unicode_escape')`
succeeds and yields a lone surrogate, and `.encode('utf-8')` raises
`UnicodeEncodeError` — outside line 184's caught class. -/
def c7FailingBytes : List Nat :=
  "<meta x charset=unicode_escape>\\ud800".data.map Char.toNat

/-- Stand-in for the meta-tag regular-expression search of line 170 at the
failing input: on the lowercased ASCII view of `c7FailingBytes` the pattern
finds the charset name `unicode_escape`.  (Python `re` is an external
collaborator.) -/
def c7MetaSearch : List Char → Option String := fun _ => some "unicode_escape"

/-- Stand-in for Python's codec machinery at the failing input: decoding
`c7FailingBytes` with `unicode_escape` succeeds, producing the lone
surrogate U+D800, and the UTF-8 re-encode of line 183 then raises
`UnicodeEncodeError`, which is neither `UnicodeDecodeError` nor
`LookupError`. -/
def c7Codec : String → List Nat → DecodeOutcome := fun _ _ =>
  DecodeOutcome.uncaughtErr

/-- C7: the conditional half of the claim holds — a detected charset whose
decode fails with the caught class `(UnicodeDecodeError, LookupError)` is
silently discarded and loading proceeds with the original bytes — but the
half "this step alone never terminates the invocation" is false of the
code, although it is the documented intent (spec §4.3 "detection is
advisory, never fatal", and the source's own comment "If detected charset
fails, fall back to default behavior"): when the decode succeeds and the
UTF-8 re-encode raises (as for `charset=unicode_escape` on
`c7FailingBytes`), the exception is outside line 184's caught class and
outside line 201's, and the invocation dies. -/
theorem charset_step_fatal_on_encode_error
    (codec : String → List Nat → DecodeOutcome)
    (metaSearch : List Char → Option String) (inp : List Nat) (cs : String)
    (hdet : detect_charset metaSearch inp = some cs) :
    (codec cs inp = DecodeOutcome.caughtErr →
      applyDetectedCharset codec metaSearch inp = CharsetStepResult.proceed inp) ∧
    (codec cs inp = DecodeOutcome.uncaughtErr →
      applyDetectedCharset codec metaSearch inp = CharsetStepResult.crashed) := by
  constructor
  · intro hfail
    unfold applyDetectedCharset
    rw [hdet]
    show (match codec cs inp with
      | DecodeOutcome.ok out => CharsetStepResult.proceed out
      | DecodeOutcome.caughtErr => CharsetStepResult.proceed inp
      | DecodeOutcome.uncaughtErr => CharsetStepResult.crashed) =
      CharsetStepResult.proceed inp
    rw [hfail]
  · intro hraise
    unfold applyDetectedCharset
    rw [hdet]
    show (match codec cs inp with
      | DecodeOutcome.ok out => CharsetStepResult.proceed out
      | DecodeOutcome.caughtErr => CharsetStepResult.proceed inp
      | DecodeOutcome.uncaughtErr => CharsetStepResult.crashed) =
      CharsetStepResult.crashed
    rw [hraise]

theorem charset_step_fatal_on_encode_error_witness :
    applyDetectedCharset c7Codec c7MetaSearch c7FailingBytes =
      CharsetStepResult.crashed :=
  (charset_step_fatal_on_encode_error c7Codec c7MetaSearch c7FailingBytes
    "unicode_escape" rfl).2 rfl

/-- C8: Whenever the space-joined command-line argument tokens contain the
literal substring `-eb`, the program refuses to run: it exits with status 1
and the corrective-ordering advice, before reading any input or evaluating
any expression — the outcome is independent of the document, the options and
the expressions. -/
theorem eb_guard_refuses (argv : List String) (doc doc' : String → List XNode)
    (opts opts' : Opts) (exprs exprs' : List String)
    (h : "-eb".data <:+: joinSep ' ' (argv.map String.data)) :
    mainEntry argv doc opts exprs = ProgOut.usageExit 1 ebAdvice ∧
    mainEntry argv doc opts exprs = mainEntry argv doc' opts' exprs' := by
  have hg : ebGuard argv = true := by
    unfold ebGuard
    exact (containsSub_iff _ _).mpr h
  constructor
  · unfold mainEntry
    rw [if_pos hg]
  · unfold mainEntry
    rw [if_pos hg, if_pos hg]

theorem eb_guard_refuses_witness :
    mainEntry ["-eb"] (fun _ => []) ⟨"", false, false, false⟩ [] =
      ProgOut.usageExit 1 ebAdvice ∧
    mainEntry ["-eb"] (fun _ => []) ⟨"", false, false, false⟩ [] =
      mainEntry ["-eb"] (fun _ => [XNode.str "x"]) ⟨"a", true, true, true⟩ ["e"] :=
  eb_guard_refuses ["-eb"] (fun _ => []) (fun _ => [XNode.str "x"])
    ⟨"", false, false, false⟩ ⟨"a", true, true, true⟩ [] ["e"]
    ⟨[], [], by simp [joinSep]⟩

/-- C9: In attribute mode, a matched element whose requested attribute is
present with the empty string as value contributes exactly one empty-string
entry, while an absent attribute contributes nothing — emptiness of the
value and absence of the attribute are distinguished in the result set. -/
theorem attribute_mode_empty_vs_absent (opts : Opts) (tc : String)
    (attrs : List (String × String)) (html : String)
    (hT : opts.text = false) (hA : ¬ opts.argument = "") :
    (lookupAttr attrs opts.argument = some "" →
      processEls opts [XNode.elem tc attrs html] = [""]) ∧
    (lookupAttr attrs opts.argument = none →
      processEls opts [XNode.elem tc attrs html] = []) := by
  unfold processEls renderNode
  constructor
  · intro hsome
    simp [hT, hA, hsome]
    rfl
  · intro hnone
    simp [hT, hA, hnone]

theorem attribute_mode_empty_vs_absent_witness :
    (lookupAttr [("href", "")] "href" = some "" →
      processEls ⟨"href", false, false, false⟩
        [XNode.elem "t" [("href", "")] "<a/>"] = [""]) ∧
    (lookupAttr [("href", "")] "href" = none →
      processEls ⟨"href", false, false, false⟩
        [XNode.elem "t" [("href", "")] "<a/>"] = []) :=
  attribute_mode_empty_vs_absent ⟨"href", false, false, false⟩ "t" [("href", "")]
    "<a/>" rfl (by decide)

/-- C10 counterexample: with existence-check off and no expression matching,
body-wrap mode still prints the (non-empty) empty HTML/BODY envelope, so
"prints nothing to stdout" fails as literally stated. -/
theorem no_match_body_mode_envelope :
    mainRun (fun _ => []) ⟨"", true, false, false⟩ ["p"] =
      (0, "<!DOCTYPE html>\n<html>\n<body>\n</body>\n</html>\n") ∧
    ("<!DOCTYPE html>\n<html>\n<body>\n</body>\n</html>\n" : String) ≠ "" :=
  ⟨by decide, by decide⟩

/-- C10 (amended): when existence-check mode is off and every supplied
expression evaluates to zero matches, the invocation succeeds: exit code 0
and no result lines are printed — stdout is empty, except that with `-b`
(and not `-t`) it is exactly the empty HTML/BODY envelope. -/
theorem no_match_success (doc : String → List XNode) (opts : Opts)
    (exprs : List String) (hx : opts.check_existence = false)
    (hempty : ∀ e ∈ exprs, doc e = []) :
    mainRun doc opts exprs =
      (0, if opts.body ∧ ¬opts.text then
            "<!DOCTYPE html>\n<html>\n<body>\n</body>\n</html>\n"
          else "") := by
  have hloop : ∀ (es : List String) (acc : List String), (∀ e ∈ es, doc e = []) →
      runLoop doc opts es acc = LoopOut.results acc := by
    intro es
    induction es with
    | nil => intro acc _; rfl
    | cons e rest ih =>
      intro acc hes
      unfold runLoop
      rw [if_neg (by simp [hx]), hes e (List.mem_cons_self _ _)]
      rw [show processEls opts [] = [] from rfl, List.append_nil]
      exact ih acc (fun e' he' => hes e' (List.mem_cons_of_mem _ he'))
  unfold mainRun
  rw [hloop exprs [] hempty]
  have hfin : finalize opts [] = [] := by
    unfold finalize
    rw [if_neg (by simp)]
  show (0, assemble opts (finalize opts [])) = _
  rw [hfin]
  unfold assemble
  by_cases hb : opts.body ∧ ¬opts.text
  · rw [if_pos hb, if_pos hb]
    exact congrArg (Prod.mk 0) (by decide)
  · rw [if_neg hb, if_neg hb]
    rfl

theorem no_match_success_witness :
    mainRun (fun _ => []) ⟨"", false, false, false⟩ ["p"] =
      (0, if (⟨"", false, false, false⟩ : Opts).body ∧
            ¬(⟨"", false, false, false⟩ : Opts).text then
            "<!DOCTYPE html>\n<html>\n<body>\n</body>\n</html>\n"
          else "") :=
  no_match_success (fun _ => []) ⟨"", false, false, false⟩ ["p"] rfl
    (fun _ _ => rfl)

end Scrape
